import Mathlib

/-!
Verification development for the `cycle_loader` repository: a dependency-aware
concurrent task orchestrator (`src/manager.rs`, `src/tracing_info.rs`,
`src/exector.rs`, `src/middlerware.rs`).

The Rust code is shallowly embedded as executable Lean functions:

* `AHashMap<&'static str, V>` is modelled as an association list
  `List (String × V)` with unique keys, insertion-order iteration, and
  first-match lookup (`alookup`, `ainsert`, `aadjust`, `aremove`, `apush`).
* A task (`Box<dyn Executor>`) is modelled by its observable behaviour: its
  `name()` and the success/failure outcome of its `execute()` future (`ok`).
* The optional `Middlerware` (a function from a task to a wrapped future) is
  modelled by the outcome of the wrapped future: `Executor → Bool`.
* `Local::now().timestamp_micros()` is modelled by a logical clock (`Int`)
  threaded through the run and incremented at each timestamp-taking call.
* The concurrent loop of `Manager::run_inner` suspends at
  `future::select_all(handles)`, which completes an arbitrary in-flight
  handle first.  The embedding takes a `sched : List Nat` oracle; at each
  loop iteration the handle at index `sched.headD 0 % handles.length`
  completes.  All scheduler state is mutated between suspension points only,
  exactly as in the source, so this oracle captures every interleaving.
* A Rust `panic!` / `.unwrap()` on `None` (a crash, distinct from returning
  `Err`) is modelled by the dedicated result constructor `RunExit.panicked`,
  and by `Option` on the build surface (`add_exector`).
* The `while` loop of `run_inner` is driven by fuel.  Each iteration removes
  one in-flight handle and moves at most `k` registry entries into `k` new
  handles, so `registry size + handle count` strictly decreases and the fuel
  `so.exectors.length + so.handles.length` chosen by `run_inner` can never
  run out; the `RunExit.fuelOut` constructor is an unreachable artifact.
  The cycle-check stack loop of `pre_check_and_find_start_nodes` has no such
  simple bound, so it takes its fuel `cfuel` as a parameter; exhaustion is
  again reported as `RunExit.fuelOut`, distinct from every validation error.
* A ghost `events` list records, in order, each task spawn
  (`tokio::spawn` in `build_handle` callers) and each completion being added
  to `all_ready_exector_names`; it affects no control flow and exists only
  so that temporal claims about the run can be stated.

`Manager::run` merely wraps `run_inner` in `tokio::time::timeout` and logs
the tracing dump; wall-clock timeout behaviour is outside this embedding, so
claims about the body of a run are settled against `run_inner`.
-/

namespace CycleLoader

/-! ## Association-list model of `AHashMap` / `AHashSet` -/

/-- First-match lookup, `map.get(k)`. -/
def alookup {α : Type} : List (String × α) → String → Option α
  | [], _ => none
  | (k', v) :: rest, k => if k' = k then some v else alookup rest k

/-- `map.contains_key(k)`. -/
def acontains {α : Type} (m : List (String × α)) (k : String) : Bool :=
  (alookup m k).isSome

/-- `map.insert(k, v)`: replace the value at an existing key, or append a
fresh key (insertion-order iteration). -/
def ainsert {α : Type} : List (String × α) → String → α → List (String × α)
  | [], k, v => [(k, v)]
  | (k', v') :: rest, k, v =>
    if k' = k then (k', v) :: rest else (k', v') :: ainsert rest k v

/-- `map.get_mut(k)` followed by an in-place update; no-op on a missing key. -/
def aadjust {α : Type} : List (String × α) → String → (α → α) → List (String × α)
  | [], _, _ => []
  | (k', v) :: rest, k, f =>
    if k' = k then (k', f v) :: rest else (k', v) :: aadjust rest k f

/-- `map.remove(k)`: the removed value (if any) together with the rest. -/
def aremove {α : Type} : List (String × α) → String → Option α × List (String × α)
  | [], _ => (none, [])
  | (k', v) :: rest, k =>
    if k' = k then (some v, rest)
    else
      let o := aremove rest k
      (o.1, (k', v) :: o.2)

/-- `map.entry(k).or_insert_with(Vec::new).push(v)`. -/
def apush : List (String × List String) → String → String → List (String × List String)
  | [], k, v => [(k, [v])]
  | (k', vs) :: rest, k, v =>
    if k' = k then (k', vs ++ [v]) :: rest else (k', vs) :: apush rest k v

/-- `AHashSet::insert`, on the list model of a set of names. -/
def insertNew (l : List String) (x : String) : List String :=
  if l.contains x then l else l ++ [x]

/-! ## `tracing_info.rs` -/

/-- `Status` of a tracing record. -/
inductive Status
  | NotStarted
  | Doing
  | Done
deriving DecidableEq

/-- `Display for Status`. -/
def statusStr : Status → String
  | Status.NotStarted => "NotStarted"
  | Status.Doing => "Doing"
  | Status.Done => "Done"

/-- One per-task tracing record: status plus microsecond timestamps. -/
structure TracingInfo where
  status : Status
  start_time : Int
  end_time : Int
deriving DecidableEq

/-- `TracingInfo::new()`. -/
def TracingInfo.new : TracingInfo :=
  { status := Status.NotStarted, start_time := 0, end_time := 0 }

/-- `TracingInfo::start`: `NotStarted → Doing`, stamping `start_time`; any
other status only logs a warning and leaves the record unchanged. -/
def TracingInfo.start (t : TracingInfo) (now : Int) : TracingInfo :=
  match t.status with
  | Status.NotStarted => { t with status := Status.Doing, start_time := now }
  | _ => t

/-- `TracingInfo::done`: `Doing → Done`, stamping `end_time`; any other
status only logs a warning and leaves the record unchanged. -/
def TracingInfo.done (t : TracingInfo) (now : Int) : TracingInfo :=
  match t.status with
  | Status.Doing => { t with status := Status.Done, end_time := now }
  | _ => t

/-- `Display for TracingInfo` (a `Doing` record renders the current time in
place of an end time). -/
def TracingInfo.render (t : TracingInfo) (now : Int) : String :=
  match t.status with
  | Status.Doing =>
    "status: " ++ statusStr t.status ++ ", start_time: " ++ toString t.start_time
      ++ ", now: " ++ toString now
  | _ =>
    "status: " ++ statusStr t.status ++ ", start_time: " ++ toString t.start_time
      ++ ", end_time: " ++ toString t.end_time

/-- The ledger: `tracing_infos: AHashMap<&'static str, TracingInfo>`. -/
structure TracingInfoManager where
  tracing_infos : List (String × TracingInfo)
deriving DecidableEq

/-- `TracingInfoManager::new()`. -/
def TracingInfoManager.new : TracingInfoManager := ⟨[]⟩

/-- `TracingInfoManager::add_tracing_info` (defined in the source but — as
claim C3 records — never invoked by any `Manager` operation). -/
def TracingInfoManager.add_tracing_info (tm : TracingInfoManager) (key : String) :
    TracingInfoManager :=
  ⟨ainsert tm.tracing_infos key TracingInfo.new⟩

/-- `TracingInfoManager::start`: transition the record at `key`; an unknown
key only logs a warning and leaves the ledger unchanged. -/
def TracingInfoManager.start (tm : TracingInfoManager) (key : String) (now : Int) :
    TracingInfoManager :=
  match alookup tm.tracing_infos key with
  | some _ => ⟨aadjust tm.tracing_infos key (fun ti => ti.start now)⟩
  | none => tm

/-- `TracingInfoManager::done`: transition the record at `key`; an unknown
key only logs a warning and leaves the ledger unchanged. -/
def TracingInfoManager.done (tm : TracingInfoManager) (key : String) (now : Int) :
    TracingInfoManager :=
  match alookup tm.tracing_infos key with
  | some _ => ⟨aadjust tm.tracing_infos key (fun ti => ti.done now)⟩
  | none => tm

/-- `Display for TracingInfoManager`: the aggregate ledger dump. -/
def TracingInfoManager.render (tm : TracingInfoManager) (now : Int) : String :=
  tm.tracing_infos.foldl
    (fun acc p => acc ++ "key: " ++ p.1 ++ ", tracing_info " ++ p.2.render now ++ "; ")
    ""

/-! ## `exector.rs` and `middlerware.rs` -/

/-- A `Box<dyn Executor>`, modelled by its observable behaviour: `name()` and
the outcome of its `execute()` future (`ok = true` for `Ok(())`). -/
structure Executor where
  name : String
  ok : Bool
deriving DecidableEq

/-- `Middlerware`: the wrapped future returned for a task, modelled by its
outcome. -/
def Middlerware : Type := Executor → Bool

/-! ## `manager.rs` -/

/-- The scheduler. `_tracing` in the source is the `tracing` field here. -/
structure Manager where
  timeout_ms : Nat
  adjacency_list : List (String × List String)
  rev_adjacency_list : List (String × List String)
  exectors : List (String × Executor)
  middlerware : Option Middlerware
  tracing : TracingInfoManager

/-- `Manager::new(timeout_ms)`. -/
def Manager.new (timeout_ms : Nat) : Manager :=
  { timeout_ms := timeout_ms
    adjacency_list := []
    rev_adjacency_list := []
    exectors := []
    middlerware := none
    tracing := TracingInfoManager.new }

/-- `Manager::set_middlerware`. -/
def Manager.set_middlerware (m : Manager) (mw : Middlerware) : Manager :=
  { m with middlerware := some mw }

/-- `Manager::add_exector`: registers a task under its name; a repeated name
panics (`none`). -/
def Manager.add_exector (m : Manager) (e : Executor) : Option Manager :=
  if acontains m.exectors e.name then none
  else some { m with exectors := m.exectors ++ [(e.name, e)] }

/-- `Manager::add_exectors`: register each in order; a panic aborts. -/
def Manager.add_exectors (m : Manager) : List Executor → Option Manager
  | [] => some m
  | e :: rest =>
    match m.add_exector e with
    | none => none
    | some m' => m'.add_exectors rest

/-- The early-return guard of `Manager::add_edge`:
`adjacency_list.contains_key(from) && adjacency_list[from].contains(&to)`. -/
def hasEdge (g : List (String × List String)) (f t : String) : Bool :=
  match alookup g f with
  | some l => l.contains t
  | none => false

/-- `Manager::add_edge(from, to)`: no-op when already present, otherwise push
`to` onto `adjacency_list[from]` and `from` onto `rev_adjacency_list[to]`. -/
def Manager.add_edge (m : Manager) (f t : String) : Manager :=
  if hasEdge m.adjacency_list f t then m
  else
    { m with
      adjacency_list := apush m.adjacency_list f t
      rev_adjacency_list := apush m.rev_adjacency_list t f }

/-- `Manager::add_edges(from, to_list)`. -/
def Manager.add_edges (m : Manager) (f : String) (ts : List String) : Manager :=
  ts.foldl (fun acc t => acc.add_edge f t) m

/-- `Manager::add_dep(name, dep)` = `add_edge(dep, name)`. -/
def Manager.add_dep (m : Manager) (name dep : String) : Manager :=
  m.add_edge dep name

/-- `Manager::add_deps(name, deps)`. -/
def Manager.add_deps (m : Manager) (name : String) (deps : List String) : Manager :=
  deps.foldl (fun acc dep => acc.add_dep name dep) m

/-- Validation errors returned (as `Err`) by `run_inner`. -/
inductive RunErr
  | noStartNodes
  | cycleFound (a b : String)
deriving DecidableEq

/-- How a run ends. `err` is a returned `anyhow::Result` error; `panicked`
is a Rust panic (`.unwrap()` on `None` / join-handle failure), which crashes
rather than returning; `fuelOut` is the unreachable fuel artifact. -/
inductive RunExit
  | ok
  | err (e : RunErr)
  | panicked (key : String)
  | fuelOut
deriving DecidableEq

/-- Ghost trace of scheduler actions: a task being spawned, and a completed
task being recorded into `all_ready_exector_names`. -/
inductive Event
  | spawn (name : String)
  | ready (name : String)
deriving DecidableEq

/-- `Manager::find_start_nodes`: every registered name with no entry in the
reverse mapping, in registry iteration order. -/
def Manager.find_start_nodes (m : Manager) : List String :=
  (m.exectors.filter (fun p => !acontains m.rev_adjacency_list p.1)).map Prod.fst

/-- The `for neighbor in neighbors` body of the cycle check: a neighbor
already marked visited-true is a cycle; otherwise it is pushed and marked
false. -/
def visitNeighbors (node : String) :
    List String → List String → List (String × Bool) →
    Except RunExit (List String × List (String × Bool))
  | [], stack, visited => Except.ok (stack, visited)
  | nb :: nbs, stack, visited =>
    if (alookup visited nb).getD false then
      Except.error (RunExit.err (RunErr.cycleFound node nb))
    else visitNeighbors node nbs (nb :: stack) (ainsert visited nb false)

/-- The `while let Some(node) = stack.pop()` loop of the cycle check, driven
by fuel. After a node's neighbors are processed it is marked visited-true. -/
def checkCycle (adj : List (String × List String)) :
    Nat → List String → List (String × Bool) → Except RunExit Unit
  | 0, _, _ => Except.error RunExit.fuelOut
  | fuel + 1, stack, visited =>
    match stack with
    | [] => Except.ok ()
    | node :: rest =>
      match alookup adj node with
      | none => checkCycle adj fuel rest (ainsert visited node true)
      | some nbs =>
        match visitNeighbors node nbs rest visited with
        | Except.error e => Except.error e
        | Except.ok (stack', visited') =>
          checkCycle adj fuel stack' (ainsert visited' node true)

/-- `Manager::pre_check_and_find_start_nodes`: no start nodes is an error;
otherwise run the cycle check from the start frontier. -/
def Manager.pre_check_and_find_start_nodes (m : Manager) (cfuel : Nat) :
    Except RunExit (List String) :=
  let start_nodes := m.find_start_nodes
  if start_nodes.isEmpty then Except.error (RunExit.err RunErr.noStartNodes)
  else
    let init := start_nodes.foldl (fun p s => (s :: p.1, ainsert p.2 s false)) ([], [])
    match checkCycle m.adjacency_list cfuel init.1 init.2 with
    | Except.error e => Except.error e
    | Except.ok _ => Except.ok start_nodes

/-- The outcome delivered by a spawned task: the middleware-wrapped future if
a middleware is configured, the task's own `execute()` otherwise. -/
def outcomeOf (mw : Option Middlerware) (e : Executor) : Bool :=
  match mw with
  | some f => f e
  | none => e.ok

/-- `Manager::build_handle`: the spawned join handle, modelled by the task
name and the outcome its future will deliver. -/
def build_handle (mw : Option Middlerware) (e : Executor) : String × Bool :=
  (e.name, outcomeOf mw e)

/-- The name extracted from a completed handle: `run_inner` matches
`Ok(name)` and `Err((name, err))` and uses the name in both arms (a failed
task is treated exactly like a successful one from here on). -/
def completionName (h : String × Bool) : String :=
  match (if h.2 then Except.ok h.1 else Except.error (h.1, ())) with
  | Except.ok n => n
  | Except.error p => p.1

/-- Result of a spawning pass: `missingKey = some k` models the panic of
`self.exectors.remove(k).unwrap()` on an unregistered identity. -/
structure SpawnOut where
  missingKey : Option String
  exectors : List (String × Executor)
  tracing : TracingInfoManager
  handles : List (String × Bool)
  events : List Event
  clk : Int

/-- The spawn of the start nodes at the top of `run_inner`: each is removed
from the registry, its tracing record is started, and its handle collected. -/
def spawnStarts (mw : Option Middlerware) :
    List String → List (String × Executor) → TracingInfoManager → Int → SpawnOut
  | [], ex, tr, clk => ⟨none, ex, tr, [], [], clk⟩
  | s :: rest, ex, tr, clk =>
    match aremove ex s with
    | (none, _) => ⟨some s, ex, tr, [], [], clk⟩
    | (some sex, ex') =>
      let tr' := tr.start sex.name clk
      let o := spawnStarts mw rest ex' tr' (clk + 1)
      ⟨o.missingKey, o.exectors, o.tracing, build_handle mw sex :: o.handles,
        Event.spawn sex.name :: o.events, o.clk⟩

/-- The `for next_exector_name in next_exector_names` body of `run_inner`: a
dependent with every reverse-mapping prerequisite in the ready set is removed
from the registry, its tracing record started, and its handle pushed. -/
def spawnNexts (rev : List (String × List String)) (mw : Option Middlerware)
    (ready : List String) :
    List String → List (String × Executor) → TracingInfoManager → Int → SpawnOut
  | [], ex, tr, clk => ⟨none, ex, tr, [], [], clk⟩
  | next :: rest, ex, tr, clk =>
    match alookup rev next with
    | none => spawnNexts rev mw ready rest ex tr clk
    | some deps =>
      if deps.all (fun d => ready.contains d) then
        match aremove ex next with
        | (none, _) => ⟨some next, ex, tr, [], [], clk⟩
        | (some nex, ex') =>
          let tr' := tr.start nex.name clk
          let o := spawnNexts rev mw ready rest ex' tr' (clk + 1)
          ⟨o.missingKey, o.exectors, o.tracing, build_handle mw nex :: o.handles,
            Event.spawn nex.name :: o.events, o.clk⟩
      else spawnNexts rev mw ready rest ex tr clk

/-- The scheduler state owned by the `while` loop of `run_inner`. -/
structure LoopState where
  exectors : List (String × Executor)
  tracing : TracingInfoManager
  ready : List String
  clk : Int
deriving DecidableEq

/-- Result of the `while` loop. -/
structure LoopOut where
  exit : RunExit
  st : LoopState
  events : List Event
deriving DecidableEq

/-- The `while !handles.is_empty()` loop of `run_inner`.  Each iteration
completes the in-flight handle chosen by the `sched` oracle
(`future::select_all`), records its name into the ready set regardless of
success or failure, marks its tracing record done, and spawns every direct
dependent whose prerequisites are all ready. -/
def runLoop (adj rev : List (String × List String)) (mw : Option Middlerware) :
    Nat → List Nat → List (String × Bool) → LoopState → LoopOut
  | 0, _, handles, st =>
    if handles.isEmpty then ⟨RunExit.ok, st, []⟩ else ⟨RunExit.fuelOut, st, []⟩
  | fuel + 1, sched, handles, st =>
    if handles.isEmpty then ⟨RunExit.ok, st, []⟩
    else
      let i := sched.headD 0 % handles.length
      let h := handles.getD i ("", true)
      let remain := handles.eraseIdx i
      let r := completionName h
      let ready' := insertNew st.ready r
      let tr' := st.tracing.done r st.clk
      let clk' := st.clk + 1
      match alookup adj r with
      | none =>
        let o := runLoop adj rev mw fuel sched.tail remain ⟨st.exectors, tr', ready', clk'⟩
        ⟨o.exit, o.st, Event.ready r :: o.events⟩
      | some nexts =>
        let so := spawnNexts rev mw ready' nexts st.exectors tr' clk'
        match so.missingKey with
        | some k =>
          ⟨RunExit.panicked k, ⟨so.exectors, so.tracing, ready', so.clk⟩,
            Event.ready r :: so.events⟩
        | none =>
          let o := runLoop adj rev mw fuel sched.tail (remain ++ so.handles)
            ⟨so.exectors, so.tracing, ready', so.clk⟩
          ⟨o.exit, o.st, Event.ready r :: (so.events ++ o.events)⟩

/-- Result of a whole run. -/
structure RunOut where
  exit : RunExit
  mgr : Manager
  events : List Event

/-- `Manager::run_inner`: validate, spawn the start nodes, then drive the
loop.  A validation error returns before any task is spawned, with the
manager untouched.  The loop fuel `registry size + handle count` strictly
exceeds the possible number of iterations, so `fuelOut` cannot arise from
the loop itself. -/
def Manager.run_inner (m : Manager) (sched : List Nat) (cfuel : Nat) (clk : Int) : RunOut :=
  match m.pre_check_and_find_start_nodes cfuel with
  | Except.error e => ⟨e, m, []⟩
  | Except.ok start_nodes =>
    match spawnStarts m.middlerware start_nodes m.exectors m.tracing clk with
    | ⟨some k, ex', tr', _, evs, _⟩ =>
      ⟨RunExit.panicked k, { m with exectors := ex', tracing := tr' }, evs⟩
    | ⟨none, ex', tr', handles, evs, clk'⟩ =>
      match runLoop m.adjacency_list m.rev_adjacency_list m.middlerware
        (ex'.length + handles.length) sched handles ⟨ex', tr', [], clk'⟩ with
      | ⟨exitv, st, evs2⟩ =>
        ⟨exitv, { m with exectors := st.exectors, tracing := st.tracing }, evs ++ evs2⟩

/-! ## Specification predicates and concrete scenario managers -/

/-- An edge `(a, b)` is present in adjacency structure `g`. -/
def edgeIn (g : List (String × List String)) (a b : String) : Prop :=
  b ∈ (alookup g a).getD []

/-- The forward/reverse mirror invariant of the dependency graph. -/
def Mirror (m : Manager) : Prop :=
  ∀ a b, edgeIn m.adjacency_list a b ↔ edgeIn m.rev_adjacency_list b a

/-- Managers reachable through the build-phase surface: `new` followed by any
sequence of `set_middlerware`, `add_exector(s)`, `add_edge(s)`, `add_dep(s)`
calls (registration panics excluded, since a panic aborts the process). -/
inductive Built : Manager → Prop
  | new (t : Nat) : Built (Manager.new t)
  | set_middlerware (m : Manager) (mw : Middlerware) :
      Built m → Built (m.set_middlerware mw)
  | add_exector (m : Manager) (e : Executor) (m' : Manager) :
      Built m → m.add_exector e = some m' → Built m'
  | add_exectors (m : Manager) (es : List Executor) (m' : Manager) :
      Built m → m.add_exectors es = some m' → Built m'
  | add_edge (m : Manager) (f t : String) : Built m → Built (m.add_edge f t)
  | add_edges (m : Manager) (f : String) (ts : List String) :
      Built m → Built (m.add_edges f ts)
  | add_dep (m : Manager) (n d : String) : Built m → Built (m.add_dep n d)
  | add_deps (m : Manager) (n : String) (ds : List String) :
      Built m → Built (m.add_deps n ds)

/-- The registry keys each task under its own `name()` (`add_exector` inserts
at `exector.name()`), so a well-formed registry satisfies this. -/
def RegistryNamed (ex : List (String × Executor)) : Prop :=
  ∀ p ∈ ex, (p : String × Executor).2.name = p.1

/-- Every spawn of a task with a reverse-mapping entry happens strictly after
all of its direct prerequisites were recorded ready (relative to a base set
of names already ready when the trace begins). -/
def SpawnsGuardedFrom (rev : List (String × List String)) (base : List String)
    (evs : List Event) : Prop :=
  ∀ pre n suf, evs = pre ++ Event.spawn n :: suf →
    ∀ deps, alookup rev n = some deps →
      ∀ d ∈ deps, Event.ready d ∈ pre ∨ d ∈ base

/-- `SpawnsGuardedFrom` with an empty base: a task with declared
prerequisites is never spawned before every one of them is ready. -/
def SpawnsGuarded (rev : List (String × List String)) (evs : List Event) : Prop :=
  ∀ pre n suf, evs = pre ++ Event.spawn n :: suf →
    ∀ deps, alookup rev n = some deps →
      ∀ d ∈ deps, Event.ready d ∈ pre

/-- The same task with its `execute()` outcome forced to success. -/
def okifyExec (e : Executor) : Executor := { e with ok := true }

/-- A registry with every task's outcome forced to success. -/
def okifyReg (ex : List (String × Executor)) : List (String × Executor) :=
  ex.map (fun p => (p.1, okifyExec p.2))

/-- A handle whose future is forced to deliver success. -/
def okifyH (h : String × Bool) : String × Bool := (h.1, true)

/-- In-flight handles with every outcome forced to success. -/
def okifyHs (hs : List (String × Bool)) : List (String × Bool) := hs.map okifyH

/-- The same manager with every task forced to succeed and no middleware:
the all-success variant a failing run is compared against. -/
def Manager.allOk (m : Manager) : Manager :=
  { m with exectors := okifyReg m.exectors, middlerware := none }

/-- A single always-succeeding task named `A`. -/
def exA : Executor := ⟨"A", true⟩

/-- Scenario: one registered task `A`, no edges. -/
def mA : Manager := ((Manager.new 1000).add_exector exA).getD (Manager.new 0)

/-- Scenario (diamond): tasks `A B C D`, edges `A→B, A→C, B→D, C→D`. -/
def mD : Manager :=
  ((((Manager.new 1000).add_exectors
      [⟨"A", true⟩, ⟨"B", true⟩, ⟨"C", true⟩, ⟨"D", true⟩]).getD
    (Manager.new 0)).add_edges "A" ["B", "C"] |>.add_edge "B" "D").add_edge "C" "D"

/-- Scenario (chain with failure): `Y` depends on `X`; `X.execute()` fails. -/
def chainXY : Manager :=
  (((Manager.new 1000).add_exectors [⟨"X", false⟩, ⟨"Y", true⟩]).getD
    (Manager.new 0)).add_dep "Y" "X"

/-- Scenario: edge `X→Ghost` where `Ghost` was never registered. -/
def mGhost : Manager :=
  (((Manager.new 1000).add_exector ⟨"X", true⟩).getD (Manager.new 0)).add_edge "X" "Ghost"

/-- Scenario: two mutually dependent tasks, hence no start node. -/
def mNoStart : Manager :=
  ((((Manager.new 1000).add_exectors [⟨"A", true⟩, ⟨"B", true⟩]).getD
    (Manager.new 0)).add_edge "A" "B").add_edge "B" "A"

/-- A bare graph with the single edge `a→b` (no registered tasks). -/
def mEdgeAB : Manager := (Manager.new 5).add_edge "a" "b"

/-! ## Association-list lemmas -/

theorem alookup_apush_self {g : List (String × List String)} {k v : String} :
    alookup (apush g k v) k = some ((alookup g k).getD [] ++ [v]) := by
  induction g with
  | nil => simp [apush, alookup]
  | cons p rest ih =>
    obtain ⟨k', vs⟩ := p
    by_cases h : k' = k
    · subst h; simp [apush, alookup]
    · simp [apush, alookup, h, ih]

theorem alookup_apush_ne {g : List (String × List String)} {k v a : String}
    (h : a ≠ k) : alookup (apush g k v) a = alookup g a := by
  induction g with
  | nil => simp [apush, alookup, Ne.symm h]
  | cons p rest ih =>
    obtain ⟨k', vs⟩ := p
    by_cases hk : k' = k
    · subst hk; simp [apush, alookup, Ne.symm h]
    · by_cases ha : k' = a <;> simp [apush, alookup, hk, ha, ih, h]

theorem aremove_fst_mem {α : Type} {ex : List (String × α)} {k : String} {v : α}
    (h : (aremove ex k).1 = some v) : (k, v) ∈ ex := by
  induction ex with
  | nil => simp [aremove] at h
  | cons p rest ih =>
    obtain ⟨k', v'⟩ := p
    by_cases hk : k' = k
    · subst hk
      simp [aremove] at h
      subst h; exact List.mem_cons_self _ _
    · simp [aremove, hk] at h
      exact List.mem_cons_of_mem _ (ih h)

theorem aremove_snd_subset {α : Type} {ex : List (String × α)} {k : String} :
    ∀ p ∈ (aremove ex k).2, p ∈ ex := by
  induction ex with
  | nil => simp [aremove]
  | cons q rest ih =>
    obtain ⟨k', v'⟩ := q
    by_cases hk : k' = k
    · subst hk
      intro p hp
      simp [aremove] at hp
      exact List.mem_cons_of_mem _ hp
    · intro p hp
      simp [aremove, hk] at hp
      rcases hp with rfl | hp
      · exact List.mem_cons_self _ _
      · exact List.mem_cons_of_mem _ (ih p hp)

/-! ## Claim C10: `add_edge` is idempotent -/

theorem contains_append_self (l : List String) (t : String) :
    (l ++ [t]).contains t = true := by simp

/-- Claim C10: for every graph state and every pair `(from, to)`, calling
`add_edge(from, to)` twice leaves the forward and reverse adjacency mappings
(indeed the whole manager) in the same state as calling it once. -/
theorem c10_add_edge_idempotent (m : Manager) (f t : String) :
    (m.add_edge f t).add_edge f t = m.add_edge f t := by
  cases h : hasEdge m.adjacency_list f t with
  | true => simp [Manager.add_edge, h]
  | false =>
    have h2 : hasEdge (apush m.adjacency_list f t) f t = true := by
      simp only [hasEdge, alookup_apush_self]
      exact contains_append_self _ _
    simp [Manager.add_edge, h, h2]

/-! ## Claim C9: forward/reverse mirror invariant -/

theorem edgeIn_apush {g : List (String × List String)} {k v a b : String} :
    edgeIn (apush g k v) a b ↔ edgeIn g a b ∨ (a = k ∧ b = v) := by
  by_cases h : a = k
  · subst h
    simp [edgeIn, alookup_apush_self]
  · simp [edgeIn, alookup_apush_ne h, h]

theorem mirror_add_edge {m : Manager} (hm : Mirror m) (f t : String) :
    Mirror (m.add_edge f t) := by
  cases h : hasEdge m.adjacency_list f t with
  | true => simpa [Manager.add_edge, h] using hm
  | false =>
    intro a b
    have hadj : (m.add_edge f t).adjacency_list = apush m.adjacency_list f t := by
      simp [Manager.add_edge, h]
    have hrev : (m.add_edge f t).rev_adjacency_list = apush m.rev_adjacency_list t f := by
      simp [Manager.add_edge, h]
    rw [edgeIn, edgeIn] at *
    rw [hadj, hrev]
    rw [show (b ∈ (alookup (apush m.adjacency_list f t) a).getD []) = edgeIn (apush m.adjacency_list f t) a b from rfl]
    rw [show (a ∈ (alookup (apush m.rev_adjacency_list t f) b).getD []) = edgeIn (apush m.rev_adjacency_list t f) b a from rfl]
    rw [edgeIn_apush, edgeIn_apush]
    have := hm a b
    constructor
    · rintro (he | ⟨rfl, rfl⟩)
      · exact Or.inl (this.1 he)
      · exact Or.inr ⟨rfl, rfl⟩
    · rintro (he | ⟨rfl, rfl⟩)
      · exact Or.inl (this.2 he)
      · exact Or.inr ⟨rfl, rfl⟩

theorem add_exector_fields {m : Manager} {e : Executor} {m' : Manager}
    (h : m.add_exector e = some m') :
    m'.adjacency_list = m.adjacency_list ∧ m'.rev_adjacency_list = m.rev_adjacency_list ∧
      m'.tracing = m.tracing := by
  unfold Manager.add_exector at h
  split at h
  · exact absurd h (by simp)
  · cases h
    exact ⟨rfl, rfl, rfl⟩

theorem add_exectors_fields {es : List Executor} :
    ∀ {m m' : Manager}, m.add_exectors es = some m' →
      m'.adjacency_list = m.adjacency_list ∧ m'.rev_adjacency_list = m.rev_adjacency_list ∧
        m'.tracing = m.tracing := by
  induction es with
  | nil =>
    intro m m' h
    cases h
    exact ⟨rfl, rfl, rfl⟩
  | cons e rest ih =>
    intro m m' h
    unfold Manager.add_exectors at h
    cases hae : m.add_exector e with
    | none => rw [hae] at h; exact absurd h (by simp)
    | some m1 =>
      rw [hae] at h
      have h1 := ih h
      have h2 := add_exector_fields hae
      exact ⟨h1.1.trans h2.1, h1.2.1.trans h2.2.1, h1.2.2.trans h2.2.2⟩

theorem mirror_of_fields {m m' : Manager} (h1 : m'.adjacency_list = m.adjacency_list)
    (h2 : m'.rev_adjacency_list = m.rev_adjacency_list) (hm : Mirror m) : Mirror m' := by
  intro a b
  rw [edgeIn, edgeIn, h1, h2]
  exact hm a b

theorem mirror_add_edges {ts : List String} :
    ∀ {m : Manager} (f : String), Mirror m → Mirror (m.add_edges f ts) := by
  induction ts with
  | nil => intro m f hm; exact hm
  | cons t rest ih => intro m f hm; exact ih f (mirror_add_edge hm f t)

theorem mirror_add_deps {ds : List String} :
    ∀ {m : Manager} (n : String), Mirror m → Mirror (m.add_deps n ds) := by
  induction ds with
  | nil => intro m n hm; exact hm
  | cons d rest ih => intro m n hm; exact ih n (mirror_add_edge hm d n)

theorem built_mirror {m : Manager} (h : Built m) : Mirror m := by
  induction h with
  | new t => intro a b; simp [Manager.new, edgeIn, alookup]
  | set_middlerware m mw _ ih => exact fun a b => ih a b
  | add_exector m e m' _ he ih =>
    exact mirror_of_fields (add_exector_fields he).1 (add_exector_fields he).2.1 ih
  | add_exectors m es m' _ he ih =>
    exact mirror_of_fields (add_exectors_fields he).1 (add_exectors_fields he).2.1 ih
  | add_edge m f t _ ih => exact mirror_add_edge ih f t
  | add_edges m f ts _ ih => exact mirror_add_edges f ih
  | add_dep m n d _ ih => exact mirror_add_edge ih d n
  | add_deps m n ds _ ih => exact mirror_add_deps n ih

/-- Claim C9: after any sequence of `add_edge`, `add_edges`, `add_dep` and
`add_deps` calls on a manager (interleaved with the other build operations),
an edge `(from, to)` is in the forward mapping iff its mirror `(to, from)`
is in the reverse mapping. -/
theorem c9_mirror_invariant (m : Manager) (h : Built m) : Mirror m :=
  built_mirror h

theorem c9_witness : Mirror mEdgeAB :=
  c9_mirror_invariant mEdgeAB (Built.add_edge _ "a" "b" (Built.new 5))

/-! ## Claim C8: start-node computation and the no-start-nodes error -/

/-- Claim C8: a registered task is computed as a start node iff its identity
has no entry in the reverse mapping; and when no start node exists,
`run_inner` returns the no-start-nodes validation error with the manager
untouched and nothing spawned. -/
theorem c8_start_nodes (m : Manager) (n : String) :
    (n ∈ m.find_start_nodes ↔
      n ∈ m.exectors.map Prod.fst ∧ alookup m.rev_adjacency_list n = none)
    ∧ (m.find_start_nodes = [] → ∀ sched cfuel clk,
        m.run_inner sched cfuel clk = ⟨RunExit.err RunErr.noStartNodes, m, []⟩) := by
  constructor
  · have hiff : ∀ x : Option (List String), (!x.isSome) = true ↔ x = none := by
      intro x; cases x <;> simp
    simp only [Manager.find_start_nodes, List.mem_map, List.mem_filter, acontains]
    constructor
    · rintro ⟨p, ⟨hp, hpred⟩, rfl⟩
      exact ⟨⟨p, hp, rfl⟩, (hiff _).1 hpred⟩
    · rintro ⟨⟨p, hp, rfl⟩, hnone⟩
      exact ⟨p, ⟨hp, (hiff _).2 hnone⟩, rfl⟩
  · intro hempty sched cfuel clk
    simp [Manager.run_inner, Manager.pre_check_and_find_start_nodes, hempty]

theorem c8_witness :
    mNoStart.run_inner [] 5 0 = ⟨RunExit.err RunErr.noStartNodes, mNoStart, []⟩ :=
  (c8_start_nodes mNoStart "A").2 (by decide) [] 5 0

/-! ## Claim C1: the tracing ledger never transitions (code bug evidence) -/

/-- Claim C1 is contradicted by the code: on the failing input `mA` — one
registered task `A` and no edges, so the graph is acyclic, has a start node,
and every edge endpoint is registered — the run terminates successfully
having spawned and completed `A`, yet the final tracing ledger holds no
record at all (`add_tracing_info` is never called by any `Manager`
operation, so `_tracing.start`/`done` always hit the unknown-key branch):
no record ever transitions NotStarted→Doing→Done, let alone exactly once. -/
theorem c1_tracing_never_transitions :
    (mA.run_inner [] 2 0).exit = RunExit.ok
    ∧ (mA.run_inner [] 2 0).events = [Event.spawn "A", Event.ready "A"]
    ∧ (mA.run_inner [] 2 0).mgr.tracing.tracing_infos = [] := by decide

/-! ## Claim C2: the diamond graph is misreported as a cycle (code bug) -/

/-- Claim C2 is contradicted by the code: on the diamond `A→B, A→C, B→D,
C→D` with all four tasks registered, validation misreports the acyclic graph
as containing a cycle (the single-boolean visited marking sees `D` again via
`B` after the `A→C→D` branch), so `run_inner` returns the cycle validation
error, spawns nothing, and no task executes. -/
theorem c2_diamond_rejected :
    (mD.run_inner [] 8 0).exit = RunExit.err (RunErr.cycleFound "B" "D")
    ∧ (mD.run_inner [] 8 0).events = []
    ∧ (mD.run_inner [] 8 0).mgr.exectors = mD.exectors
    ∧ (mD.run_inner [] 8 0).mgr.tracing.tracing_infos = []
    ∧ mD.find_start_nodes = ["A"] := by decide

/-! ## Claim C6: an unregistered edge endpoint makes the scheduler panic -/

/-- Claim C6: with the single registered task `X` and the edge `X→Ghost`
naming the never-registered identity `Ghost`, the run crashes — the panic of
`self.exectors.remove("Ghost").unwrap()` — rather than returning an error
result. -/
theorem c6_unregistered_edge_panics :
    (mGhost.run_inner [] 3 0).exit = RunExit.panicked "Ghost"
    ∧ ∀ e : RunErr, (mGhost.run_inner [] 3 0).exit ≠ RunExit.err e := by
  have h1 : (mGhost.run_inner [] 3 0).exit = RunExit.panicked "Ghost" := by decide
  refine ⟨h1, fun e h => ?_⟩
  rw [h1] at h
  exact RunExit.noConfusion h

/-! ## Equation shapes of `run_inner` -/

theorem run_inner_error_eq (m : Manager) (sched : List Nat) (cfuel : Nat) (clk : Int)
    (e : RunExit) (hpc : m.pre_check_and_find_start_nodes cfuel = Except.error e) :
    m.run_inner sched cfuel clk = ⟨e, m, []⟩ := by
  unfold Manager.run_inner
  rw [hpc]

theorem run_inner_ok_eq (m : Manager) (sched : List Nat) (cfuel : Nat) (clk : Int)
    (starts : List String)
    (hpc : m.pre_check_and_find_start_nodes cfuel = Except.ok starts) :
    m.run_inner sched cfuel clk =
      (match spawnStarts m.middlerware starts m.exectors m.tracing clk with
      | ⟨some k, ex', tr', _, evs, _⟩ =>
        ⟨RunExit.panicked k, { m with exectors := ex', tracing := tr' }, evs⟩
      | ⟨none, ex', tr', handles, evs, clk'⟩ =>
        match runLoop m.adjacency_list m.rev_adjacency_list m.middlerware
          (ex'.length + handles.length) sched handles ⟨ex', tr', [], clk'⟩ with
        | ⟨exitv, st, evs2⟩ =>
          ⟨exitv, { m with exectors := st.exectors, tracing := st.tracing }, evs ++ evs2⟩) := by
  unfold Manager.run_inner
  rw [hpc]

/-! ## Claim C7: validation errors leave the manager untouched -/

theorem runLoop_exit_not_err (adj rev : List (String × List String))
    (mw : Option Middlerware) :
    ∀ (fuel : Nat) (sched : List Nat) (handles : List (String × Bool)) (st : LoopState)
      (e : RunErr), (runLoop adj rev mw fuel sched handles st).exit ≠ RunExit.err e := by
  intro fuel
  induction fuel with
  | zero =>
    intro sched handles st e
    by_cases h : handles.isEmpty = true <;> simp [runLoop, h]
  | succ n ih =>
    intro sched handles st e
    by_cases h : handles.isEmpty = true
    · simp [runLoop, h]
    · simp only [runLoop]
      rw [if_neg h]
      split
      · exact ih _ _ _ e
      · split
        · simp
        · exact ih _ _ _ e

/-- Claim C7: whenever `run_inner` returns a validation error (no start
nodes, or cycle detected), the graph, the registry and the tracing ledger
are exactly as they were before the call, and no task was spawned (the event
trace is empty). -/
theorem c7_validation_error_no_side_effects (m : Manager) (sched : List Nat)
    (cfuel : Nat) (clk : Int) (e : RunErr)
    (h : (m.run_inner sched cfuel clk).exit = RunExit.err e) :
    (m.run_inner sched cfuel clk).mgr = m ∧ (m.run_inner sched cfuel clk).events = [] := by
  cases hpc : m.pre_check_and_find_start_nodes cfuel with
  | error e' =>
    rw [run_inner_error_eq m sched cfuel clk e' hpc]
    exact ⟨rfl, rfl⟩
  | ok starts =>
    exfalso
    rw [run_inner_ok_eq m sched cfuel clk starts hpc] at h
    cases hso : spawnStarts m.middlerware starts m.exectors m.tracing clk with
    | mk mk0 ex' tr' hs evs clk' =>
      rw [hso] at h
      cases mk0 with
      | some k =>
        have h2 : RunExit.panicked k = RunExit.err e := h
        exact RunExit.noConfusion h2
      | none =>
        have h2 : (match runLoop m.adjacency_list m.rev_adjacency_list m.middlerware
            (ex'.length + hs.length) sched hs ⟨ex', tr', [], clk'⟩ with
          | ⟨exitv, st, evs2⟩ =>
            (⟨exitv, { m with exectors := st.exectors, tracing := st.tracing },
              evs ++ evs2⟩ : RunOut)).exit = RunExit.err e := h
        cases hrl : runLoop m.adjacency_list m.rev_adjacency_list m.middlerware
            (ex'.length + hs.length) sched hs ⟨ex', tr', [], clk'⟩ with
        | mk exitv st evs2 =>
          rw [hrl] at h2
          have hne := runLoop_exit_not_err m.adjacency_list m.rev_adjacency_list
            m.middlerware (ex'.length + hs.length) sched hs ⟨ex', tr', [], clk'⟩ e
          rw [hrl] at hne
          exact hne h2

theorem c7_witness :
    (mNoStart.run_inner [] 7 0).mgr = mNoStart ∧ (mNoStart.run_inner [] 7 0).events = [] :=
  c7_validation_error_no_side_effects mNoStart [] 7 0 RunErr.noStartNodes (by decide)

/-! ## Claim C3: the tracing ledger is never populated -/

theorem tracing_start_eq_of_empty {tm : TracingInfoManager} (h : tm.tracing_infos = [])
    (k : String) (now : Int) : tm.start k now = tm := by
  unfold TracingInfoManager.start
  rw [h]
  rfl

theorem tracing_done_eq_of_empty {tm : TracingInfoManager} (h : tm.tracing_infos = [])
    (k : String) (now : Int) : tm.done k now = tm := by
  unfold TracingInfoManager.done
  rw [h]
  rfl

theorem render_eq_of_empty {tm : TracingInfoManager} (h : tm.tracing_infos = [])
    (now : Int) : tm.render now = "" := by
  unfold TracingInfoManager.render
  rw [h]
  rfl

theorem spawnStarts_tracing_empty (mw : Option Middlerware) :
    ∀ (starts : List String) (ex : List (String × Executor)) (tr : TracingInfoManager)
      (clk : Int), tr.tracing_infos = [] →
      (spawnStarts mw starts ex tr clk).tracing.tracing_infos = [] := by
  intro starts
  induction starts with
  | nil => intro ex tr clk h; exact h
  | cons s rest ih =>
    intro ex tr clk h
    simp only [spawnStarts]
    split
    · exact h
    · rw [tracing_start_eq_of_empty h]
      exact ih _ _ _ h

theorem spawnNexts_tracing_empty (rev : List (String × List String))
    (mw : Option Middlerware) (ready : List String) :
    ∀ (nexts : List String) (ex : List (String × Executor)) (tr : TracingInfoManager)
      (clk : Int), tr.tracing_infos = [] →
      (spawnNexts rev mw ready nexts ex tr clk).tracing.tracing_infos = [] := by
  intro nexts
  induction nexts with
  | nil => intro ex tr clk h; exact h
  | cons next rest ih =>
    intro ex tr clk h
    simp only [spawnNexts]
    split
    · exact ih _ _ _ h
    · split
      · split
        · exact h
        · rw [tracing_start_eq_of_empty h]
          exact ih _ _ _ h
      · exact ih _ _ _ h

theorem runLoop_tracing_empty (adj rev : List (String × List String))
    (mw : Option Middlerware) :
    ∀ (fuel : Nat) (sched : List Nat) (handles : List (String × Bool)) (st : LoopState),
      st.tracing.tracing_infos = [] →
      (runLoop adj rev mw fuel sched handles st).st.tracing.tracing_infos = [] := by
  intro fuel
  induction fuel with
  | zero =>
    intro sched handles st h
    by_cases he : handles.isEmpty = true <;> simp [runLoop, he, h]
  | succ n ih =>
    intro sched handles st h
    by_cases he : handles.isEmpty = true
    · simp [runLoop, he, h]
    · simp only [runLoop]
      rw [if_neg he]
      split
      · exact ih _ _ _ (by rw [tracing_done_eq_of_empty h]; exact h)
      · split
        · exact spawnNexts_tracing_empty _ _ _ _ _ _ _
            (by rw [tracing_done_eq_of_empty h]; exact h)
        · exact ih _ _ _ (spawnNexts_tracing_empty _ _ _ _ _ _ _
            (by rw [tracing_done_eq_of_empty h]; exact h))

theorem add_edge_tracing (m : Manager) (f t : String) :
    (m.add_edge f t).tracing = m.tracing := by
  unfold Manager.add_edge
  split <;> rfl

theorem add_edges_tracing (ts : List String) :
    ∀ (m : Manager) (f : String), (m.add_edges f ts).tracing = m.tracing := by
  induction ts with
  | nil => intro m f; rfl
  | cons t rest ih =>
    intro m f
    exact (ih (m.add_edge f t) f).trans (add_edge_tracing m f t)

theorem add_deps_tracing (ds : List String) :
    ∀ (m : Manager) (n : String), (m.add_deps n ds).tracing = m.tracing := by
  induction ds with
  | nil => intro m n; rfl
  | cons d rest ih =>
    intro m n
    exact (ih (m.add_dep n d) n).trans (add_edge_tracing m d n)

theorem built_tracing_empty {m : Manager} (h : Built m) : m.tracing.tracing_infos = [] := by
  induction h with
  | new t => rfl
  | set_middlerware m mw _ ih => exact ih
  | add_exector m e m' _ he ih => rw [(add_exector_fields he).2.2]; exact ih
  | add_exectors m es m' _ he ih => rw [(add_exectors_fields he).2.2]; exact ih
  | add_edge m f t _ ih => rw [add_edge_tracing]; exact ih
  | add_edges m f ts _ ih => rw [add_edges_tracing]; exact ih
  | add_dep m n d _ ih =>
    show (m.add_edge d n).tracing.tracing_infos = []
    rw [add_edge_tracing]; exact ih
  | add_deps m n ds _ ih => rw [add_deps_tracing]; exact ih

/-- Claim C3: no `Manager` operation ever inserts a record into the tracing
ledger (`add_tracing_info` is never invoked), so on every built manager the
ledger is empty, every `start`/`done` call hits the unknown-key branch and
leaves the ledger unchanged, the ledger is still empty after any run, and
the ledger dump emitted at the end of `run` is always the empty string. -/
theorem c3_ledger_always_empty (m : Manager) (hb : Built m) :
    m.tracing.tracing_infos = []
    ∧ (∀ k now, m.tracing.start k now = m.tracing ∧ m.tracing.done k now = m.tracing)
    ∧ ∀ sched cfuel clk now,
        (m.run_inner sched cfuel clk).mgr.tracing.tracing_infos = []
        ∧ (m.run_inner sched cfuel clk).mgr.tracing.render now = "" := by
  have hemp := built_tracing_empty hb
  refine ⟨hemp, fun k now =>
    ⟨tracing_start_eq_of_empty hemp k now, tracing_done_eq_of_empty hemp k now⟩,
    fun sched cfuel clk now => ?_⟩
  have hmain : (m.run_inner sched cfuel clk).mgr.tracing.tracing_infos = [] := by
    cases hpc : m.pre_check_and_find_start_nodes cfuel with
    | error e' => rw [run_inner_error_eq m sched cfuel clk e' hpc]; exact hemp
    | ok starts =>
      rw [run_inner_ok_eq m sched cfuel clk starts hpc]
      have hsp := spawnStarts_tracing_empty m.middlerware starts m.exectors m.tracing clk hemp
      cases hso : spawnStarts m.middlerware starts m.exectors m.tracing clk with
      | mk mk0 ex' tr' hs evs clk' =>
        rw [hso] at hsp
        cases mk0 with
        | some k => exact hsp
        | none =>
          have hrl := runLoop_tracing_empty m.adjacency_list m.rev_adjacency_list
            m.middlerware (ex'.length + hs.length) sched hs ⟨ex', tr', [], clk'⟩ hsp
          cases hro : runLoop m.adjacency_list m.rev_adjacency_list m.middlerware
              (ex'.length + hs.length) sched hs ⟨ex', tr', [], clk'⟩ with
          | mk exitv st evs2 =>
            rw [hro] at hrl
            have hgoal : (match runLoop m.adjacency_list m.rev_adjacency_list m.middlerware
                (ex'.length + hs.length) sched hs ⟨ex', tr', [], clk'⟩ with
              | ⟨exitv, st, evs2⟩ =>
                (⟨exitv, { m with exectors := st.exectors, tracing := st.tracing },
                  evs ++ evs2⟩ : RunOut)).mgr.tracing.tracing_infos = [] := by
              rw [hro]
              exact hrl
            exact hgoal
  exact ⟨hmain, render_eq_of_empty hmain now⟩

theorem c3_witness :
    mA.tracing.tracing_infos = []
    ∧ (∀ k now, mA.tracing.start k now = mA.tracing ∧ mA.tracing.done k now = mA.tracing)
    ∧ ∀ sched cfuel clk now,
        (mA.run_inner sched cfuel clk).mgr.tracing.tracing_infos = []
        ∧ (mA.run_inner sched cfuel clk).mgr.tracing.render now = "" :=
  c3_ledger_always_empty mA (Built.add_exector _ exA _ (Built.new 1000) rfl)

/-! ## Claim C5: no task spawned before its prerequisites are ready -/

theorem mem_insertNew {l : List String} {x y : String} :
    x ∈ insertNew l y ↔ x ∈ l ∨ x = y := by
  unfold insertNew
  by_cases h : l.contains y = true
  · rw [if_pos h]
    replace h : y ∈ l := by simpa using h
    constructor
    · exact Or.inl
    · rintro (hx | rfl)
      · exact hx
      · exact h
  · rw [if_neg h]
    simp

theorem sgf_nil {rev : List (String × List String)} {base : List String} :
    SpawnsGuardedFrom rev base [] := by
  intro pre n suf h
  exact absurd h (by simp)

theorem sgf_cons_ready {rev : List (String × List String)} {base : List String}
    {evs : List Event} {r : String}
    (h : SpawnsGuardedFrom rev (insertNew base r) evs) :
    SpawnsGuardedFrom rev base (Event.ready r :: evs) := by
  intro pre n suf hsplit deps hdeps d hd
  cases pre with
  | nil =>
    rw [List.nil_append] at hsplit
    injection hsplit with h1 h2
    exact Event.noConfusion h1
  | cons p0 pre' =>
    rw [List.cons_append] at hsplit
    injection hsplit with h1 h2
    subst h1
    rcases h pre' n suf h2 deps hdeps d hd with hin | hbase
    · exact Or.inl (List.mem_cons_of_mem _ hin)
    · rcases mem_insertNew.1 hbase with hb | rfl
      · exact Or.inr hb
      · exact Or.inl (List.mem_cons_self _ _)

theorem sgf_cons_spawn {rev : List (String × List String)} {base : List String}
    {evs : List Event} {n0 : String}
    (hok : ∀ deps, alookup rev n0 = some deps → ∀ d ∈ deps, d ∈ base)
    (h : SpawnsGuardedFrom rev base evs) :
    SpawnsGuardedFrom rev base (Event.spawn n0 :: evs) := by
  intro pre n suf hsplit deps hdeps d hd
  cases pre with
  | nil =>
    rw [List.nil_append] at hsplit
    injection hsplit with h1 h2
    injection h1 with h1
    subst h1
    exact Or.inr (hok deps hdeps d hd)
  | cons p0 pre' =>
    rw [List.cons_append] at hsplit
    injection hsplit with h1 h2
    rcases h pre' n suf h2 deps hdeps d hd with hin | hbase
    · exact Or.inl (List.mem_cons_of_mem _ hin)
    · exact Or.inr hbase

theorem sgf_append {rev : List (String × List String)} {base : List String}
    {evs1 evs2 : List Event}
    (h1 : SpawnsGuardedFrom rev base evs1) (h2 : SpawnsGuardedFrom rev base evs2) :
    SpawnsGuardedFrom rev base (evs1 ++ evs2) := by
  intro pre n suf hsplit deps hdeps d hd
  rcases List.append_eq_append_iff.1 hsplit with ⟨a, ha1, ha2⟩ | ⟨c, hc1, hc2⟩
  · rcases h2 a n suf ha2 deps hdeps d hd with hin | hbase
    · exact Or.inl (by rw [ha1]; exact List.mem_append.2 (Or.inr hin))
    · exact Or.inr hbase
  · cases c with
    | nil =>
      rcases h2 [] n suf (by rw [List.nil_append]; exact hc2.symm) deps hdeps d hd with
        hin | hbase
      · exact absurd hin (List.not_mem_nil _)
      · exact Or.inr hbase
    | cons x c' =>
      rw [List.cons_append] at hc2
      injection hc2 with hx hsuf
      subst hx
      subst hsuf
      exact h1 pre n c' hc1 deps hdeps d hd

theorem sgf_to_guarded {rev : List (String × List String)} {evs : List Event}
    (h : SpawnsGuardedFrom rev [] evs) : SpawnsGuarded rev evs := by
  intro pre n suf hs deps hdeps d hd
  rcases h pre n suf hs deps hdeps d hd with hin | hbase
  · exact hin
  · exact absurd hbase (List.not_mem_nil d)

theorem spawnNexts_registry_named (rev : List (String × List String))
    (mw : Option Middlerware) (ready : List String) :
    ∀ (nexts : List String) (ex : List (String × Executor)) (tr : TracingInfoManager)
      (clk : Int), RegistryNamed ex →
      RegistryNamed (spawnNexts rev mw ready nexts ex tr clk).exectors := by
  intro nexts
  induction nexts with
  | nil => intro ex tr clk h; exact h
  | cons next rest ih =>
    intro ex tr clk hreg
    simp only [spawnNexts]
    split
    · exact ih _ _ _ hreg
    · split
      · split
        · exact hreg
        · rename_i nex ex' hrm
          refine ih _ _ _ ?_
          intro p hp
          exact hreg p (aremove_snd_subset p (by rw [hrm]; exact hp))
      · exact ih _ _ _ hreg

theorem spawnStarts_registry_named (mw : Option Middlerware) :
    ∀ (starts : List String) (ex : List (String × Executor)) (tr : TracingInfoManager)
      (clk : Int), RegistryNamed ex →
      RegistryNamed (spawnStarts mw starts ex tr clk).exectors := by
  intro starts
  induction starts with
  | nil => intro ex tr clk h; exact h
  | cons s rest ih =>
    intro ex tr clk hreg
    simp only [spawnStarts]
    split
    · exact hreg
    · rename_i sex ex' hrm
      refine ih _ _ _ ?_
      intro p hp
      exact hreg p (aremove_snd_subset p (by rw [hrm]; exact hp))

theorem spawnNexts_guarded (rev : List (String × List String)) (mw : Option Middlerware)
    (ready : List String) :
    ∀ (nexts : List String) (ex : List (String × Executor)) (tr : TracingInfoManager)
      (clk : Int), RegistryNamed ex →
      SpawnsGuardedFrom rev ready (spawnNexts rev mw ready nexts ex tr clk).events := by
  intro nexts
  induction nexts with
  | nil => intro ex tr clk _; exact sgf_nil
  | cons next rest ih =>
    intro ex tr clk hreg
    simp only [spawnNexts]
    split
    · exact ih _ _ _ hreg
    · rename_i deps hdeps
      split
      · rename_i hall
        split
        · exact sgf_nil
        · rename_i nex ex' hrm
          have hmem : (next, nex) ∈ ex := aremove_fst_mem (by rw [hrm])
          have hname : nex.name = next := hreg _ hmem
          have hreg' : RegistryNamed ex' := by
            intro p hp
            exact hreg p (aremove_snd_subset p (by rw [hrm]; exact hp))
          refine sgf_cons_spawn ?_ (ih _ _ _ hreg')
          intro deps' hdeps' d hd
          rw [hname, hdeps] at hdeps'
          injection hdeps' with hde
          subst hde
          have := List.all_eq_true.1 hall d hd
          simpa using this
      · exact ih _ _ _ hreg

theorem spawnStarts_guarded (mw : Option Middlerware) (rev : List (String × List String))
    (base : List String) :
    ∀ (starts : List String) (ex : List (String × Executor)) (tr : TracingInfoManager)
      (clk : Int), RegistryNamed ex → (∀ s ∈ starts, alookup rev s = none) →
      SpawnsGuardedFrom rev base (spawnStarts mw starts ex tr clk).events := by
  intro starts
  induction starts with
  | nil => intro ex tr clk _ _; exact sgf_nil
  | cons s rest ih =>
    intro ex tr clk hreg hnone
    simp only [spawnStarts]
    split
    · exact sgf_nil
    · rename_i sex ex' hrm
      have hmem : (s, sex) ∈ ex := aremove_fst_mem (by rw [hrm])
      have hname : sex.name = s := hreg _ hmem
      have hreg' : RegistryNamed ex' := by
        intro p hp
        exact hreg p (aremove_snd_subset p (by rw [hrm]; exact hp))
      refine sgf_cons_spawn ?_
        (ih _ _ _ hreg' (fun x hx => hnone x (List.mem_cons_of_mem _ hx)))
      intro deps hdeps d hd
      rw [hname, hnone s (List.mem_cons_self _ _)] at hdeps
      exact Option.noConfusion hdeps

theorem runLoop_guarded (adj rev : List (String × List String)) (mw : Option Middlerware) :
    ∀ (fuel : Nat) (sched : List Nat) (handles : List (String × Bool)) (st : LoopState),
      RegistryNamed st.exectors →
      SpawnsGuardedFrom rev st.ready (runLoop adj rev mw fuel sched handles st).events := by
  intro fuel
  induction fuel with
  | zero =>
    intro sched handles st _
    have hev : (runLoop adj rev mw 0 sched handles st).events = [] := by
      by_cases he : handles.isEmpty = true <;> simp [runLoop, he]
    rw [hev]
    exact sgf_nil
  | succ n ih =>
    intro sched handles st hreg
    by_cases he : handles.isEmpty = true
    · have hev : (runLoop adj rev mw (n + 1) sched handles st).events = [] := by
        simp [runLoop, he]
      rw [hev]
      exact sgf_nil
    · simp only [runLoop]
      rw [if_neg he]
      split
      · exact sgf_cons_ready (ih _ _ _ hreg)
      · split
        · exact sgf_cons_ready (spawnNexts_guarded rev mw _ _ _ _ _ hreg)
        · exact sgf_cons_ready
            (sgf_append (spawnNexts_guarded rev mw _ _ _ _ _ hreg)
              (ih _ _ _ (spawnNexts_registry_named rev mw _ _ _ _ _ hreg)))

theorem start_nodes_rev_none (m : Manager) :
    ∀ n ∈ m.find_start_nodes, alookup m.rev_adjacency_list n = none := by
  intro n hn
  simp only [Manager.find_start_nodes, List.mem_map, List.mem_filter, acontains] at hn
  obtain ⟨p, ⟨_, hpred⟩, rfl⟩ := hn
  cases hx : alookup m.rev_adjacency_list p.1 with
  | none => rfl
  | some v => rw [hx] at hpred; simp at hpred

theorem pre_check_ok_starts {m : Manager} {cfuel : Nat} {starts : List String}
    (h : m.pre_check_and_find_start_nodes cfuel = Except.ok starts) :
    starts = m.find_start_nodes := by
  simp only [Manager.pre_check_and_find_start_nodes] at h
  by_cases he : m.find_start_nodes.isEmpty = true
  · rw [if_pos he] at h
    exact absurd h (by simp)
  · rw [if_neg he] at h
    split at h
    · exact absurd h (by simp)
    · injection h with h
      exact h.symm

/-- Claim C5: throughout every run of a well-formed manager (every registry
entry keyed by its task's own name), a task that has a reverse-mapping entry
(at least one declared prerequisite) is never spawned before every one of
its direct prerequisites has been recorded into the ready set; spawns
without that condition are exactly the tasks with no reverse-mapping entry
(the start nodes). -/
theorem c5_spawn_guarded (m : Manager) (hreg : RegistryNamed m.exectors)
    (sched : List Nat) (cfuel : Nat) (clk : Int) :
    SpawnsGuarded m.rev_adjacency_list (m.run_inner sched cfuel clk).events := by
  cases hpc : m.pre_check_and_find_start_nodes cfuel with
  | error e' =>
    rw [run_inner_error_eq m sched cfuel clk e' hpc]
    exact sgf_to_guarded sgf_nil
  | ok starts =>
    rw [run_inner_ok_eq m sched cfuel clk starts hpc]
    have hstarts : ∀ s ∈ starts, alookup m.rev_adjacency_list s = none := by
      intro s hs
      exact start_nodes_rev_none m s (pre_check_ok_starts hpc ▸ hs)
    have hsg := spawnStarts_guarded m.middlerware m.rev_adjacency_list []
      starts m.exectors m.tracing clk hreg hstarts
    have hsr := spawnStarts_registry_named m.middlerware
      starts m.exectors m.tracing clk hreg
    cases hso : spawnStarts m.middlerware starts m.exectors m.tracing clk with
    | mk mk0 ex' tr' hs evs clk' =>
      rw [hso] at hsg hsr
      cases mk0 with
      | some k => exact sgf_to_guarded hsg
      | none =>
        show SpawnsGuarded m.rev_adjacency_list
          (match runLoop m.adjacency_list m.rev_adjacency_list m.middlerware
            (ex'.length + hs.length) sched hs ⟨ex', tr', [], clk'⟩ with
          | ⟨exitv, st, evs2⟩ =>
            (⟨exitv, { m with exectors := st.exectors, tracing := st.tracing },
              evs ++ evs2⟩ : RunOut)).events
        cases hro : runLoop m.adjacency_list m.rev_adjacency_list m.middlerware
            (ex'.length + hs.length) sched hs ⟨ex', tr', [], clk'⟩ with
        | mk exitv st2 evs2 =>
          have hlg := runLoop_guarded m.adjacency_list m.rev_adjacency_list m.middlerware
            (ex'.length + hs.length) sched hs ⟨ex', tr', [], clk'⟩ hsr
          rw [hro] at hlg
          exact sgf_to_guarded (sgf_append hsg hlg)

theorem c5_witness :
    SpawnsGuarded chainXY.rev_adjacency_list (chainXY.run_inner [] 3 0).events :=
  c5_spawn_guarded chainXY (by unfold RegistryNamed; decide) [] 3 0

/-! ## Claim C4: a task failure changes nothing about the run -/

theorem completionName_eq (h : String × Bool) : completionName h = h.1 := by
  obtain ⟨n, b⟩ := h
  cases b <;> rfl

theorem okifyH_fst (h : String × Bool) : (okifyH h).1 = h.1 := rfl

theorem length_okifyHs (hs : List (String × Bool)) : (okifyHs hs).length = hs.length :=
  List.length_map hs okifyH

theorem isEmpty_okifyHs (hs : List (String × Bool)) : (okifyHs hs).isEmpty = hs.isEmpty := by
  cases hs <;> rfl

theorem getD_okifyHs (hs : List (String × Bool)) :
    ∀ i : Nat, (okifyHs hs).getD i ("", true) = okifyH (hs.getD i ("", true)) := by
  induction hs with
  | nil => intro i; rfl
  | cons h rest ih =>
    intro i
    cases i with
    | zero => rfl
    | succ j => exact ih j

theorem eraseIdx_okifyHs (hs : List (String × Bool)) :
    ∀ i : Nat, (okifyHs hs).eraseIdx i = okifyHs (hs.eraseIdx i) := by
  induction hs with
  | nil => intro i; rfl
  | cons h rest ih =>
    intro i
    cases i with
    | zero => rfl
    | succ j =>
      show okifyH h :: (okifyHs rest).eraseIdx j = okifyH h :: okifyHs (rest.eraseIdx j)
      rw [ih j]

theorem okifyReg_cons (p : String × Executor) (rest : List (String × Executor)) :
    okifyReg (p :: rest) = (p.1, okifyExec p.2) :: okifyReg rest := rfl

theorem aremove_okify :
    ∀ (ex : List (String × Executor)) (k : String),
      aremove (okifyReg ex) k =
        ((aremove ex k).1.map okifyExec, okifyReg (aremove ex k).2) := by
  intro ex
  induction ex with
  | nil => intro k; rfl
  | cons p rest ih =>
    intro k
    obtain ⟨k', v⟩ := p
    rw [okifyReg_cons]
    by_cases h : k' = k
    · subst h
      simp [aremove]
    · simp only [aremove, if_neg h]
      rw [ih k]
      rfl

theorem build_handle_okify (mw : Option Middlerware) (e : Executor) :
    build_handle none (okifyExec e) = okifyH (build_handle mw e) := rfl

theorem spawnNexts_okify (rev : List (String × List String)) (mw : Option Middlerware)
    (ready : List String) :
    ∀ (nexts : List String) (ex : List (String × Executor)) (tr : TracingInfoManager)
      (clk : Int),
      spawnNexts rev none ready nexts (okifyReg ex) tr clk =
        ⟨(spawnNexts rev mw ready nexts ex tr clk).missingKey,
         okifyReg (spawnNexts rev mw ready nexts ex tr clk).exectors,
         (spawnNexts rev mw ready nexts ex tr clk).tracing,
         okifyHs (spawnNexts rev mw ready nexts ex tr clk).handles,
         (spawnNexts rev mw ready nexts ex tr clk).events,
         (spawnNexts rev mw ready nexts ex tr clk).clk⟩ := by
  intro nexts
  induction nexts with
  | nil => intro ex tr clk; rfl
  | cons next rest ih =>
    intro ex tr clk
    simp only [spawnNexts]
    split
    · exact ih _ _ _
    · split
      · rw [aremove_okify]
        generalize aremove ex next = pr
        obtain ⟨o, ex2⟩ := pr
        cases o with
        | none => rfl
        | some nex =>
          simp only [Option.map_some', ih]
          rfl
      · exact ih _ _ _

theorem spawnStarts_okify (mw : Option Middlerware) :
    ∀ (starts : List String) (ex : List (String × Executor)) (tr : TracingInfoManager)
      (clk : Int),
      spawnStarts none starts (okifyReg ex) tr clk =
        ⟨(spawnStarts mw starts ex tr clk).missingKey,
         okifyReg (spawnStarts mw starts ex tr clk).exectors,
         (spawnStarts mw starts ex tr clk).tracing,
         okifyHs (spawnStarts mw starts ex tr clk).handles,
         (spawnStarts mw starts ex tr clk).events,
         (spawnStarts mw starts ex tr clk).clk⟩ := by
  intro starts
  induction starts with
  | nil => intro ex tr clk; rfl
  | cons s rest ih =>
    intro ex tr clk
    simp only [spawnStarts]
    rw [aremove_okify]
    generalize aremove ex s = pr
    obtain ⟨o, ex2⟩ := pr
    cases o with
    | none => rfl
    | some sex =>
      simp only [Option.map_some', ih]
      rfl

theorem completionName_okifyH (h : String × Bool) :
    completionName (okifyH h) = completionName h := by
  rw [completionName_eq, completionName_eq]
  rfl

theorem okifyHs_append (hs1 hs2 : List (String × Bool)) :
    okifyHs (hs1 ++ hs2) = okifyHs hs1 ++ okifyHs hs2 :=
  List.map_append okifyH hs1 hs2

theorem runLoop_okify (adj rev : List (String × List String)) (mw : Option Middlerware) :
    ∀ (fuel : Nat) (sched : List Nat) (handles : List (String × Bool))
      (ex : List (String × Executor)) (tr : TracingInfoManager) (ready : List String)
      (clk : Int),
      runLoop adj rev none fuel sched (okifyHs handles) ⟨okifyReg ex, tr, ready, clk⟩ =
        ⟨(runLoop adj rev mw fuel sched handles ⟨ex, tr, ready, clk⟩).exit,
         ⟨okifyReg (runLoop adj rev mw fuel sched handles ⟨ex, tr, ready, clk⟩).st.exectors,
          (runLoop adj rev mw fuel sched handles ⟨ex, tr, ready, clk⟩).st.tracing,
          (runLoop adj rev mw fuel sched handles ⟨ex, tr, ready, clk⟩).st.ready,
          (runLoop adj rev mw fuel sched handles ⟨ex, tr, ready, clk⟩).st.clk⟩,
         (runLoop adj rev mw fuel sched handles ⟨ex, tr, ready, clk⟩).events⟩ := by
  intro fuel
  induction fuel with
  | zero =>
    intro sched handles ex tr ready clk
    by_cases he : handles.isEmpty = true <;>
      simp [runLoop, isEmpty_okifyHs, he]
  | succ n ih =>
    intro sched handles ex tr ready clk
    by_cases he : handles.isEmpty = true
    · simp [runLoop, isEmpty_okifyHs, he]
    · simp only [runLoop, isEmpty_okifyHs]
      rw [if_neg he, if_neg he]
      simp only [length_okifyHs, getD_okifyHs, eraseIdx_okifyHs, completionName_okifyH]
      split
      · rw [ih]
      · rw [spawnNexts_okify rev mw]
        simp only []
        split
        · rfl
        · rw [← okifyHs_append, ih]

theorem length_okifyReg (ex : List (String × Executor)) :
    (okifyReg ex).length = ex.length :=
  List.length_map ex _

theorem filter_okifyReg (rev : List (String × List String)) :
    ∀ ex : List (String × Executor),
      ((okifyReg ex).filter (fun p => !acontains rev p.1)).map Prod.fst =
        (ex.filter (fun p => !acontains rev p.1)).map Prod.fst := by
  intro ex
  induction ex with
  | nil => rfl
  | cons p rest ih =>
    rw [okifyReg_cons]
    simp only [List.filter_cons]
    by_cases h : (!acontains rev p.1) = true
    · simp only [h, if_pos]
      simp only [List.map_cons, ih]
    · simp only [h]
      simp only [Bool.false_eq_true, if_neg, ih]
      exact ih

theorem find_start_nodes_allOk (m : Manager) :
    m.allOk.find_start_nodes = m.find_start_nodes := by
  simp only [Manager.find_start_nodes, Manager.allOk]
  exact filter_okifyReg m.rev_adjacency_list m.exectors

theorem pre_check_allOk (m : Manager) (cfuel : Nat) :
    m.allOk.pre_check_and_find_start_nodes cfuel =
      m.pre_check_and_find_start_nodes cfuel := by
  simp only [Manager.pre_check_and_find_start_nodes, find_start_nodes_allOk]
  rfl

/-- Claim C4: task failure never propagates.  First conjunct: for every
manager, every schedule and every fuel, the run in which tasks fail (and the
middleware may fail them) has exactly the same exit, the same event trace
(every failed task is recorded ready, every unblocked dependent is spawned)
and the same final manager (up to forcing outcomes to success) as the
all-success run: the outcome delivered by a completed handle is never
consulted.  Second conjunct, the spec's chain scenario: `Y` depends on `X`,
`X.execute()` fails, yet `Y` is still spawned after `X` is ready and
`run_inner` returns overall success. -/
theorem c4_failure_never_propagates :
    (∀ (m : Manager) (sched : List Nat) (cfuel : Nat) (clk : Int),
      (m.allOk.run_inner sched cfuel clk).exit = (m.run_inner sched cfuel clk).exit
      ∧ (m.allOk.run_inner sched cfuel clk).events = (m.run_inner sched cfuel clk).events
      ∧ (m.allOk.run_inner sched cfuel clk).mgr = ((m.run_inner sched cfuel clk).mgr).allOk)
    ∧ ((chainXY.run_inner [] 3 0).exit = RunExit.ok
      ∧ (chainXY.run_inner [] 3 0).events
          = [Event.spawn "X", Event.ready "X", Event.spawn "Y", Event.ready "Y"]) := by
  constructor
  · intro m sched cfuel clk
    cases hpc : m.pre_check_and_find_start_nodes cfuel with
    | error e' =>
      have hpc2 : m.allOk.pre_check_and_find_start_nodes cfuel = Except.error e' := by
        rw [pre_check_allOk]; exact hpc
      rw [run_inner_error_eq m sched cfuel clk e' hpc,
          run_inner_error_eq m.allOk sched cfuel clk e' hpc2]
      exact ⟨rfl, rfl, rfl⟩
    | ok starts =>
      have hpc2 : m.allOk.pre_check_and_find_start_nodes cfuel = Except.ok starts := by
        rw [pre_check_allOk]; exact hpc
      rw [run_inner_ok_eq m sched cfuel clk starts hpc,
          run_inner_ok_eq m.allOk sched cfuel clk starts hpc2]
      simp only [Manager.allOk]
      rw [spawnStarts_okify m.middlerware]
      cases spawnStarts m.middlerware starts m.exectors m.tracing clk with
      | mk mk0 ex' tr' hs evs clk' =>
        simp only []
        cases mk0 with
        | some k => exact ⟨rfl, rfl, rfl⟩
        | none =>
          simp only []
          rw [length_okifyReg, length_okifyHs,
            runLoop_okify m.adjacency_list m.rev_adjacency_list m.middlerware]
          cases runLoop m.adjacency_list m.rev_adjacency_list m.middlerware
              (ex'.length + hs.length) sched hs ⟨ex', tr', [], clk'⟩ with
          | mk exitv st2 evs2 =>
            refine ⟨?_, ?_, ?_⟩ <;> trivial
  · constructor
    · decide
    · decide

end CycleLoader
